import Mathlib

/-!
Verification of the chunking / TF-IDF retrieval core of `review_assistant`.

The embedding follows the two Python sources that carry the algorithmic
content of the repository:

* `src/python/file_chunker.py` — `chunk_text` splits a text into
  overlapping chunks with offset metadata and content-addressed ids.
* `src/python/simple_rag_assistant.py` — `SimpleVectorizer` (TF-IDF
  weights and cosine similarity), `VectorStore` (fit + cached vectors +
  top-k search) and `SimpleRAGAssistant` (chunk loading and `ask`).

Modelling conventions:

* A Python string is modelled as a `List Char`; `text[pos:end]` becomes
  `(text.drop pos).take (end - pos)`.
* Python `int` positions in the chunker are modelled as `ℕ`.  All
  statements proved below only involve runs in which every value of
  `end - overlap` computed by the code is nonnegative, where the two
  semantics agree.
* The SHA-256 content hash and the wall-clock timestamp are modelled as
  parameters (`hash : List Char → String`, `now : String`): the code
  treats both as opaque strings, and the theorems quantify over them.
* Python floats are idealised as real numbers.
* A document is represented by its token sequence (the output of the
  pure tokenizer `SimpleVectorizer._tokenise`); the vectorizer claims
  are all about what happens to the token multiset afterwards.
-/

namespace ReviewAssistant

/-- One chunk record produced by `chunk_text` in `file_chunker.py`:
`content`, plus the metadata fields `source`, `chunk_id`, `start_char`,
`end_char`, `created_at`. -/
structure Chunk where
  content : List Char
  source : String
  chunk_id : String
  start_char : Nat
  end_char : Nat
  created_at : String
deriving DecidableEq, Repr

/-- The `while pos < text_len` loop of `chunk_text`, with explicit fuel.
Each iteration emits the chunk spanning `[pos, min (pos + cs) text.length)`,
stops when the chunk end reaches the end of the text, and otherwise
continues at `end - overlap` with the next chunk index.  The `Bool`
component records whether the loop exited on its own (`true`) or ran out
of fuel (`false`, the code loops forever). -/
def chunkFrom (hash : List Char → String) (now source : String) (text : List Char)
    (cs ov : Nat) : Nat → Nat → Nat → List Chunk × Bool
  | 0, _, _ => ([], false)
  | fuel + 1, pos, idx =>
      if pos < text.length then
        let e := min (pos + cs) text.length
        let c : Chunk :=
          { content := (text.drop pos).take (e - pos)
            source := source
            chunk_id := hash text ++ "_" ++ toString idx
            start_char := pos
            end_char := e
            created_at := now }
        if e = text.length then ([c], true)
        else
          let r := chunkFrom hash now source text cs ov fuel (e - ov) (idx + 1)
          (c :: r.1, r.2)
      else ([], true)

/-- `chunk_text(text, file_path, chunk_size, overlap)` from
`file_chunker.py`: run the chunking loop from position 0 and chunk
index 0.  `text.length + 1` units of fuel are enough for every
terminating run (each iteration either stops or advances `pos` by at
least one when `overlap < chunk_size`). -/
def chunk_text (hash : List Char → String) (now source : String) (text : List Char)
    (cs ov : Nat) : List Chunk :=
  (chunkFrom hash now source text cs ov (text.length + 1) 0 0).1

/-- Whether the `chunk_text` loop terminates within `text.length + 1`
iterations (the Python function returns at all only in that case). -/
def chunk_terminates (hash : List Char → String) (now source : String) (text : List Char)
    (cs ov : Nat) : Bool :=
  (chunkFrom hash now source text cs ov (text.length + 1) 0 0).2

section ChunkerLemmas

variable (hash : List Char → String) (now source : String) (text : List Char) (cs ov : Nat)

/-- The chunk record that an iteration of the loop starting at position
`pos` with chunk index `idx` appends (the `chunk_dict` of the source). -/
def chunkAt (pos idx : Nat) : Chunk :=
  { content := (text.drop pos).take (min (pos + cs) text.length - pos)
    source := source
    chunk_id := hash text ++ "_" ++ toString idx
    start_char := pos
    end_char := min (pos + cs) text.length
    created_at := now }

theorem chunkFrom_stop (fuel pos idx : Nat) (h : ¬ pos < text.length) :
    chunkFrom hash now source text cs ov (fuel + 1) pos idx = ([], true) := by
  simp only [chunkFrom, if_neg h]

theorem chunkFrom_last (fuel pos idx : Nat) (h : pos < text.length)
    (he : min (pos + cs) text.length = text.length) :
    chunkFrom hash now source text cs ov (fuel + 1) pos idx =
      ([chunkAt hash now source text cs pos idx], true) := by
  simp only [chunkFrom, if_pos h, if_pos he, chunkAt, he, if_true]

theorem chunkFrom_step (fuel pos idx : Nat) (h : pos < text.length)
    (he : ¬ min (pos + cs) text.length = text.length) :
    chunkFrom hash now source text cs ov (fuel + 1) pos idx =
      ((chunkAt hash now source text cs pos idx) ::
        (chunkFrom hash now source text cs ov fuel (min (pos + cs) text.length - ov) (idx + 1)).1,
       (chunkFrom hash now source text cs ov fuel (min (pos + cs) text.length - ov) (idx + 1)).2) := by
  simp only [chunkFrom, if_pos h, if_neg he, chunkAt]

end ChunkerLemmas

/-- Ceiling-division arithmetic: a single window suffices. -/
theorem max_one_ceil_of_le (x d : Nat) (hd : 0 < d) (hx : x ≤ d) :
    max 1 ((x + d - 1) / d) = 1 := by
  have h2 : (x + d - 1) / d < 2 := by
    rw [Nat.div_lt_iff_lt_mul hd]; omega
  exact Nat.max_eq_left (by omega)

/-- Ceiling-division arithmetic: peeling off one window. -/
theorem max_one_ceil_of_gt (x d : Nat) (hd : 0 < d) (hx : d < x) :
    max 1 ((x + d - 1) / d) = 1 + max 1 ((x - d + d - 1) / d) := by
  have e1 : x - d + d - 1 = x - 1 := by omega
  have e2 : x + d - 1 = (x - 1) + d := by omega
  have h1 : 1 ≤ (x - 1) / d := by
    rw [Nat.le_div_iff_mul_le hd]; omega
  rw [e1, e2, Nat.add_div_right _ hd]
  have h2 : max 1 ((x - 1) / d) = (x - 1) / d := Nat.max_eq_right h1
  rw [h2, Nat.max_eq_right (by omega)]
  omega

section ChunkerInvariant

variable (hash : List Char → String) (now source : String) (text : List Char) (cs ov : Nat)

/-- Shape of a terminated run of the chunking loop started at position
`pos` and chunk index `idx`: the emitted chunks sit at the positions
`pos + j * (chunkSize - overlap)`, carry consecutive chunk indices, the
last window reaches the end of the text, and the number of chunks is
`max 1 ⌈(len - pos - overlap) / (chunkSize - overlap)⌉`. -/
def ChunkRun (pos idx : Nat) (res : List Chunk) : Prop :=
  res.length = max 1 ((text.length - pos - ov + (cs - ov) - 1) / (cs - ov)) ∧
  (∀ j, j < res.length → pos + j * (cs - ov) < text.length) ∧
  (∀ j, j + 1 < res.length → pos + j * (cs - ov) + cs < text.length) ∧
  text.length ≤ pos + (res.length - 1) * (cs - ov) + cs ∧
  ∀ j (hj : j < res.length),
    res.get ⟨j, hj⟩ = chunkAt hash now source text cs (pos + j * (cs - ov)) (idx + j)

theorem chunkFrom_valid (hov : ov < cs) :
    ∀ fuel pos idx, pos < text.length → text.length - pos ≤ fuel →
      (chunkFrom hash now source text cs ov fuel pos idx).2 = true ∧
      ChunkRun hash now source text cs ov pos idx
        (chunkFrom hash now source text cs ov fuel pos idx).1 := by
  intro fuel
  induction fuel with
  | zero => intro pos idx hpos hfuel; omega
  | succ fuel ih =>
    intro pos idx hpos hfuel
    by_cases he : min (pos + cs) text.length = text.length
    · rw [chunkFrom_last hash now source text cs ov fuel pos idx hpos he]
      have hle : text.length ≤ pos + cs := by omega
      refine ⟨rfl, ?_, ?_, ?_, ?_, ?_⟩
      · show 1 = max 1 ((text.length - pos - ov + (cs - ov) - 1) / (cs - ov))
        rw [max_one_ceil_of_le _ _ (by omega) (by omega)]
      · intro j hj
        have hj0 : j = 0 := by simpa using hj
        subst hj0; simpa using hpos
      · intro j hj
        simp at hj
      · simp only [List.length_singleton]
        omega
      · intro j hj
        have hj0 : j = 0 := by simpa using hj
        subst hj0
        simp
    · rw [chunkFrom_step hash now source text cs ov fuel pos idx hpos he]
      have hlt : pos + cs < text.length := by omega
      have hmin : min (pos + cs) text.length = pos + cs := by omega
      rw [hmin]
      obtain ⟨hterm, hlen, hstart, hgap, hlast, hget⟩ :=
        ih (pos + cs - ov) (idx + 1) (by omega) (by omega)
      set rest := (chunkFrom hash now source text cs ov fuel (pos + cs - ov) (idx + 1)).1 with hrest
      have hn : 1 ≤ rest.length := by
        rw [hlen]; omega
      refine ⟨hterm, ?_, ?_, ?_, ?_, ?_⟩
      · show rest.length + 1 = max 1 ((text.length - pos - ov + (cs - ov) - 1) / (cs - ov))
        have hx : cs - ov < text.length - pos - ov := by omega
        rw [max_one_ceil_of_gt _ _ (by omega) hx]
        have e3 : text.length - pos - ov - (cs - ov) = text.length - (pos + cs - ov) - ov := by
          omega
        rw [e3] at *
        omega
      · intro j hj
        match j with
        | 0 => simpa using hpos
        | j + 1 =>
          have h' := hstart j (by simpa using hj)
          have e1 : (j + 1) * (cs - ov) = j * (cs - ov) + (cs - ov) := by ring
          omega
      · intro j hj
        match j with
        | 0 => simpa using hlt
        | j + 1 =>
          have h' := hgap j (by simpa using hj)
          have e1 : (j + 1) * (cs - ov) = j * (cs - ov) + (cs - ov) := by ring
          omega
      · show text.length ≤ pos + (rest.length + 1 - 1) * (cs - ov) + cs
        have e0 : rest.length + 1 - 1 = rest.length - 1 + 1 := by omega
        rw [e0, add_one_mul]
        omega
      · intro j hj
        match j with
        | 0 =>
          show chunkAt hash now source text cs pos idx =
            chunkAt hash now source text cs (pos + 0 * (cs - ov)) (idx + 0)
          norm_num
        | j + 1 =>
          have hj' : j < rest.length := by simpa using hj
          show rest.get ⟨j, hj'⟩ =
            chunkAt hash now source text cs (pos + (j + 1) * (cs - ov)) (idx + (j + 1))
          rw [hget j hj']
          have e1 : pos + cs - ov + j * (cs - ov) = pos + (j + 1) * (cs - ov) := by
            have : (j + 1) * (cs - ov) = j * (cs - ov) + (cs - ov) := by ring
            omega
          have e2 : idx + 1 + j = idx + (j + 1) := by omega
          rw [e1, e2]

end ChunkerInvariant

/-- Rational ceiling of a quotient of naturals agrees with the usual
`(a + b - 1) / b` natural-number ceiling division. -/
theorem ceil_rat_eq_nat_ceil (a b : Nat) (hb : 0 < b) :
    ⌈(a : ℚ) / (b : ℚ)⌉ = (((a + b - 1) / b : Nat) : ℤ) := by
  have hbq : (0 : ℚ) < (b : ℚ) := by exact_mod_cast hb
  rcases Nat.eq_zero_or_pos a with ha | ha
  · subst ha
    rw [Nat.div_eq_of_lt (by omega)]
    simp
  · have hmod := Nat.div_add_mod (a + b - 1) b
    have hmlt : (a + b - 1) % b < b := Nat.mod_lt _ hb
    have ha1 : a ≤ b * ((a + b - 1) / b) := by omega
    have ha2 : b * ((a + b - 1) / b) < a + b := by omega
    generalize (a + b - 1) / b = n at ha1 ha2 ⊢
    have key1 : (b : ℚ) * (n : ℚ) < (a : ℚ) + (b : ℚ) := by exact_mod_cast ha2
    have key2 : (a : ℚ) ≤ (b : ℚ) * (n : ℚ) := by exact_mod_cast ha1
    rw [Int.ceil_eq_iff]
    constructor
    · rw [sub_lt_iff_lt_add]
      rw [show (a : ℚ) / (b : ℚ) + 1 = ((a : ℚ) + (b : ℚ)) / (b : ℚ) by field_simp]
      rw [lt_div_iff₀ hbq]
      push_cast
      linarith
    · rw [div_le_iff₀ hbq]
      push_cast
      linarith

section ChunkerClaims

variable (hash : List Char → String) (now source : String) (text : List Char) (cs ov : Nat)

/-- C1: For `overlap < chunkSize` and nonempty text, `chunk_text`
terminates, emits at least one chunk, each chunk spans
`[pos, min (pos + chunkSize) |T|)` with `pos = j * (chunkSize - overlap)`
and carries exactly that slice of the text, each next chunk starts at
the previous chunk's end minus `overlap`, the last chunk ends at `|T|`,
the chunks cover every position of the text, and the number of chunks is
`⌈(|T| - overlap) / (chunkSize - overlap)⌉` when `|T| > overlap` but `1`
(not the ceiling, which is `≤ 0`) when `0 < |T| ≤ overlap`. -/
theorem C1_chunk_cover_count (hov : ov < cs) (hne : text ≠ []) :
    chunk_terminates hash now source text cs ov = true ∧
    0 < (chunk_text hash now source text cs ov).length ∧
    (∀ j (hj : j < (chunk_text hash now source text cs ov).length),
      ((chunk_text hash now source text cs ov).get ⟨j, hj⟩).start_char = j * (cs - ov) ∧
      ((chunk_text hash now source text cs ov).get ⟨j, hj⟩).end_char =
        min (j * (cs - ov) + cs) text.length ∧
      ((chunk_text hash now source text cs ov).get ⟨j, hj⟩).content =
        (text.drop (j * (cs - ov))).take (min (j * (cs - ov) + cs) text.length - j * (cs - ov))) ∧
    (∀ j (hj : j + 1 < (chunk_text hash now source text cs ov).length),
      ((chunk_text hash now source text cs ov).get ⟨j + 1, hj⟩).start_char =
        ((chunk_text hash now source text cs ov).get ⟨j, Nat.lt_of_succ_lt hj⟩).end_char - ov) ∧
    (∀ h0 : 0 < (chunk_text hash now source text cs ov).length,
      ((chunk_text hash now source text cs ov).get
        ⟨(chunk_text hash now source text cs ov).length - 1,
          Nat.sub_lt h0 Nat.one_pos⟩).end_char = text.length) ∧
    (∀ i, i < text.length → ∃ j, ∃ hj : j < (chunk_text hash now source text cs ov).length,
      ((chunk_text hash now source text cs ov).get ⟨j, hj⟩).start_char ≤ i ∧
      i < ((chunk_text hash now source text cs ov).get ⟨j, hj⟩).end_char) ∧
    (ov < text.length →
      ((chunk_text hash now source text cs ov).length : ℤ) =
        ⌈((text.length : ℚ) - (ov : ℚ)) / ((cs : ℚ) - (ov : ℚ))⌉) ∧
    (text.length ≤ ov → (chunk_text hash now source text cs ov).length = 1) := by
  have hL : 0 < text.length := List.length_pos.mpr hne
  obtain ⟨hterm, hlen, hstart, hgap, hlast, hget⟩ :=
    chunkFrom_valid hash now source text cs ov hov (text.length + 1) 0 0 hL (by omega)
  have hd : 0 < cs - ov := by omega
  set res := chunk_text hash now source text cs ov with hres
  have hres' : res = (chunkFrom hash now source text cs ov (text.length + 1) 0 0).1 := rfl
  rw [← hres'] at hlen hstart hgap hlast hget
  simp only [Nat.zero_add, Nat.sub_zero] at hlen hstart hgap hlast hget
  have hpos : 0 < res.length := by rw [hlen]; omega
  have hspan : ∀ j (hj : j < res.length),
      (res.get ⟨j, hj⟩).start_char = j * (cs - ov) ∧
      (res.get ⟨j, hj⟩).end_char = min (j * (cs - ov) + cs) text.length ∧
      (res.get ⟨j, hj⟩).content =
        (text.drop (j * (cs - ov))).take (min (j * (cs - ov) + cs) text.length - j * (cs - ov)) := by
    intro j hj
    rw [hget j hj]
    exact ⟨rfl, rfl, rfl⟩
  refine ⟨hterm, hpos, hspan, ?_, ?_, ?_, ?_, ?_⟩
  · intro j hj
    obtain ⟨hs1, he1, -⟩ := hspan (j + 1) hj
    obtain ⟨-, he0, -⟩ := hspan j (Nat.lt_of_succ_lt hj)
    rw [hs1, he0]
    have hg := hgap j hj
    have e1 : (j + 1) * (cs - ov) = j * (cs - ov) + (cs - ov) := by ring
    omega
  · intro h0
    obtain ⟨-, he, -⟩ := hspan (res.length - 1) (Nat.sub_lt h0 Nat.one_pos)
    rw [he]
    omega
  · intro i hi
    by_cases hc : i / (cs - ov) ≤ res.length - 1
    · have hj : i / (cs - ov) < res.length := by omega
      obtain ⟨hs, he, -⟩ := hspan (i / (cs - ov)) hj
      refine ⟨i / (cs - ov), hj, ?_, ?_⟩
      · rw [hs]; exact Nat.div_mul_le_self i (cs - ov)
      · rw [he]
        have hdm := Nat.div_add_mod i (cs - ov)
        have hml := Nat.mod_lt i hd
        have hcm : (cs - ov) * (i / (cs - ov)) = i / (cs - ov) * (cs - ov) := mul_comm _ _
        omega
    · have hj : res.length - 1 < res.length := Nat.sub_lt hpos Nat.one_pos
      obtain ⟨hs, he, -⟩ := hspan (res.length - 1) hj
      refine ⟨res.length - 1, hj, ?_, ?_⟩
      · rw [hs]
        have h1 : res.length - 1 ≤ i / (cs - ov) := by omega
        have h2 : (res.length - 1) * (cs - ov) ≤ i / (cs - ov) * (cs - ov) :=
          Nat.mul_le_mul_right _ h1
        have h3 : i / (cs - ov) * (cs - ov) ≤ i := Nat.div_mul_le_self i (cs - ov)
        omega
      · rw [he]; omega
  · intro hov'
    have hx : 1 ≤ text.length - ov := by omega
    have h1 : 1 ≤ (text.length - ov + (cs - ov) - 1) / (cs - ov) := by
      rw [Nat.le_div_iff_mul_le hd]; omega
    have hlen' : res.length = (text.length - ov + (cs - ov) - 1) / (cs - ov) := by
      rw [hlen, Nat.max_eq_right h1]
    have hcast1 : ((text.length : ℚ) - (ov : ℚ)) = ((text.length - ov : Nat) : ℚ) := by
      push_cast [Nat.cast_sub (le_of_lt hov')]
      ring
    have hcast2 : ((cs : ℚ) - (ov : ℚ)) = ((cs - ov : Nat) : ℚ) := by
      push_cast [Nat.cast_sub (le_of_lt hov)]
      ring
    rw [hcast1, hcast2, ceil_rat_eq_nat_ceil (text.length - ov) (cs - ov) hd, hlen']
  · intro hle
    have e0 : text.length - ov = 0 := by omega
    rw [hlen, e0]
    rw [max_one_ceil_of_le _ _ hd (by omega)]

end ChunkerClaims

/-- C1 fails as stated at `T = "a"`, `chunkSize = 3`, `overlap = 1`:
the loop emits one chunk covering the whole text, while the claimed
count `⌈(|T| - overlap) / (chunkSize - overlap)⌉ = ⌈0 / 2⌉` is `0`. -/
theorem C1_counterexample :
    ((chunk_text (fun _ => "h") "" "" ['a'] 3 1).length : ℤ) ≠
      ⌈(((['a'] : List Char).length : ℚ) - ((1 : Nat) : ℚ)) / (((3 : Nat) : ℚ) - ((1 : Nat) : ℚ))⌉ ∧
    (chunk_text (fun _ => "h") "" "" ['a'] 3 1).length = 1 := by
  constructor
  · have h1 : ((chunk_text (fun _ => "h") "" "" ['a'] 3 1).length : ℤ) = 1 := by decide
    rw [h1]
    norm_num
  · decide

/-- Witness for C1: at `T = "abc"`, `chunkSize = 2`, `overlap = 1` the
corrected count formula applies and gives 2 chunks. -/
theorem C1_witness :
    ((chunk_text (fun _ => "h") "" "" ['a', 'b', 'c'] 2 1).length : ℤ) =
      ⌈(((['a', 'b', 'c'] : List Char).length : ℚ) - ((1 : Nat) : ℚ)) /
        (((2 : Nat) : ℚ) - ((1 : Nat) : ℚ))⌉ :=
  (C1_chunk_cover_count (fun _ => "h") "" "" ['a', 'b', 'c'] 2 1 (by decide)
    (by decide)).2.2.2.2.2.2.1 (by decide)

section ChunkerC4

variable (hash : List Char → String) (now source : String) (text : List Char) (cs ov : Nat)

/-- With `overlap = chunkSize < |text|`, every loop iteration recomputes
`pos = end - overlap = 0`: the window never advances, so no amount of
fuel makes the loop stop. -/
theorem chunkFrom_stuck (hcs : ov = cs) (hlt : cs < text.length) :
    ∀ fuel idx, (chunkFrom hash now source text cs ov fuel 0 idx).2 = false := by
  intro fuel
  induction fuel with
  | zero => intro idx; rfl
  | succ fuel ih =>
    intro idx
    have hpos : 0 < text.length := by omega
    have hne : ¬ min (0 + cs) text.length = text.length := by omega
    rw [chunkFrom_step hash now source text cs ov fuel 0 idx hpos hne]
    have e : min (0 + cs) text.length - ov = 0 := by omega
    rw [e]
    simpa using ih (idx + 1)

/-- C4 (amended): `chunk_text` performs no validation at all.  For the
invalid configuration `overlap = chunkSize` (on a text longer than
`chunkSize`) the call is not rejected: the loop emits a chunk on its
very first iteration and then never terminates, because the position
never advances. -/
theorem C4_no_validation (hcs : ov = cs) (hlt : cs < text.length) :
    (∀ fuel, (chunkFrom hash now source text cs ov fuel 0 0).2 = false) ∧
    chunk_text hash now source text cs ov ≠ [] := by
  constructor
  · intro fuel
    exact chunkFrom_stuck hash now source text cs ov hcs hlt fuel 0
  · have hpos : 0 < text.length := by omega
    have hne : ¬ min (0 + cs) text.length = text.length := by omega
    unfold chunk_text
    rw [chunkFrom_step hash now source text cs ov text.length 0 0 hpos hne]
    simp

end ChunkerC4

/-- C4 fails as stated at `chunkSize = overlap = 1`, `T = "ab"`: no
configuration error is raised — the call emits chunks (three within the
first three iterations) and the loop never exits. -/
theorem C4_counterexample :
    (chunk_text (fun _ => "h") "" "" ['a', 'b'] 1 1).length = 3 ∧
    chunk_terminates (fun _ => "h") "" "" ['a', 'b'] 1 1 = false := by
  exact ⟨by decide, by decide⟩

/-- Witness for C4 at `chunkSize = overlap = 1`, `T = "ab"`. -/
theorem C4_witness :
    (chunkFrom (fun _ => "h") "" "" ['a', 'b'] 1 1 5 0 0).2 = false ∧
    chunk_text (fun _ => "h") "" "" ['a', 'b'] 1 1 ≠ [] :=
  ⟨(C4_no_validation (fun _ => "h") "" "" ['a', 'b'] 1 1 rfl (by decide)).1 5,
   (C4_no_validation (fun _ => "h") "" "" ['a', 'b'] 1 1 rfl (by decide)).2⟩

section ChunkerC8

variable (hash : List Char → String) (text : List Char) (cs ov : Nat)

/-- The chunk ids emitted from chunk index `idx` onward are exactly
`hash(text) ++ "_" ++ (idx + j)` for consecutive `j`, whatever the
parameters (valid or not). -/
theorem chunkFrom_ids (now source : String) :
    ∀ fuel pos idx,
      ((chunkFrom hash now source text cs ov fuel pos idx).1).map (fun c => c.chunk_id) =
        (List.range (chunkFrom hash now source text cs ov fuel pos idx).1.length).map
          (fun j => hash text ++ "_" ++ toString (idx + j)) := by
  intro fuel
  induction fuel with
  | zero => intro pos idx; rfl
  | succ fuel ih =>
    intro pos idx
    by_cases hpos : pos < text.length
    · by_cases he : min (pos + cs) text.length = text.length
      · rw [chunkFrom_last hash now source text cs ov fuel pos idx hpos he]
        simp [chunkAt, List.range_succ]
      · rw [chunkFrom_step hash now source text cs ov fuel pos idx hpos he]
        simp only [List.map_cons, List.length_cons, List.range_succ_eq_map,
          List.map_map]
        rw [ih (min (pos + cs) text.length - ov) (idx + 1)]
        congr 1
        apply List.map_congr_left
        intro j hj
        simp only [Function.comp_apply]
        have e : idx + 1 + j = idx + (j + 1) := by omega
        rw [e]
    · rw [chunkFrom_stop hash now source text cs ov fuel pos idx hpos]
      rfl

/-- The content, id and offsets of the emitted chunks do not depend on
the timestamp or on the source path (which only populate the `created_at`
and `source` metadata fields). -/
theorem chunkFrom_path_time_indep (n1 p1 n2 p2 : String) :
    ∀ fuel pos idx,
      ((chunkFrom hash n1 p1 text cs ov fuel pos idx).1).map
          (fun c => (c.content, c.chunk_id, c.start_char, c.end_char)) =
        ((chunkFrom hash n2 p2 text cs ov fuel pos idx).1).map
          (fun c => (c.content, c.chunk_id, c.start_char, c.end_char)) ∧
      (chunkFrom hash n1 p1 text cs ov fuel pos idx).2 =
        (chunkFrom hash n2 p2 text cs ov fuel pos idx).2 := by
  intro fuel
  induction fuel with
  | zero => intro pos idx; exact ⟨rfl, rfl⟩
  | succ fuel ih =>
    intro pos idx
    by_cases hpos : pos < text.length
    · by_cases he : min (pos + cs) text.length = text.length
      · rw [chunkFrom_last hash n1 p1 text cs ov fuel pos idx hpos he,
          chunkFrom_last hash n2 p2 text cs ov fuel pos idx hpos he]
        exact ⟨by simp [chunkAt], rfl⟩
      · rw [chunkFrom_step hash n1 p1 text cs ov fuel pos idx hpos he,
          chunkFrom_step hash n2 p2 text cs ov fuel pos idx hpos he]
        obtain ⟨h1, h2⟩ := ih (min (pos + cs) text.length - ov) (idx + 1)
        constructor
        · simp only [List.map_cons]
          rw [h1]
          simp [chunkAt]
        · simpa using h2
    · rw [chunkFrom_stop hash n1 p1 text cs ov fuel pos idx hpos,
        chunkFrom_stop hash n2 p2 text cs ov fuel pos idx hpos]
      exact ⟨rfl, rfl⟩

end ChunkerC8

/-- C8: chunk ids are a pure function of the text content and the
chunking parameters — two runs with different timestamps and different
source paths give identical id sequences — and the `j`-th emitted chunk
has id `hash(text) ++ "_" ++ j`. -/
theorem C8_deterministic_ids (hash : List Char → String) (n1 p1 n2 p2 : String)
    (text : List Char) (cs ov : Nat) :
    (chunk_text hash n1 p1 text cs ov).map (fun c => c.chunk_id) =
      (chunk_text hash n2 p2 text cs ov).map (fun c => c.chunk_id) ∧
    ∀ j (hj : j < (chunk_text hash n1 p1 text cs ov).length),
      ((chunk_text hash n1 p1 text cs ov).get ⟨j, hj⟩).chunk_id =
        hash text ++ "_" ++ toString j := by
  have hproj : ∀ (l : List Chunk), l.map (fun c => c.chunk_id) =
      (l.map (fun c => (c.content, c.chunk_id, c.start_char, c.end_char))).map
        (fun q => q.2.1) := by
    intro l
    rw [List.map_map]
    rfl
  constructor
  · unfold chunk_text
    rw [hproj, hproj]
    rw [(chunkFrom_path_time_indep hash text cs ov n1 p1 n2 p2 (text.length + 1) 0 0).1]
  · intro j hj
    have hids : (chunk_text hash n1 p1 text cs ov).map (fun c => c.chunk_id) =
        (List.range (chunk_text hash n1 p1 text cs ov).length).map
          (fun i => hash text ++ "_" ++ toString (0 + i)) :=
      chunkFrom_ids hash text cs ov n1 p1 (text.length + 1) 0 0
    have hj' : j < ((chunk_text hash n1 p1 text cs ov).map (fun c => c.chunk_id)).length := by
      simpa using hj
    have h1 : ((chunk_text hash n1 p1 text cs ov).map (fun c => c.chunk_id)).get ⟨j, hj'⟩ =
        ((chunk_text hash n1 p1 text cs ov).get ⟨j, hj⟩).chunk_id := by
      simp
    rw [← h1, List.get_of_eq hids ⟨j, hj'⟩]
    simp

/-- Witness for C8 at `T = "ab"`, `chunkSize = 2`, `overlap = 0`, two
different timestamps and paths. -/
theorem C8_witness :
    (chunk_text (fun _ => "h") "t1" "pathA" ['a', 'b'] 2 0).map (fun c => c.chunk_id) =
      (chunk_text (fun _ => "h") "t2" "pathB" ['a', 'b'] 2 0).map (fun c => c.chunk_id) ∧
    ((chunk_text (fun _ => "h") "t1" "pathA" ['a', 'b'] 2 0).get
      ⟨0, by decide⟩).chunk_id = (fun _ => "h") ['a', 'b'] ++ "_" ++ toString 0 :=
  ⟨(C8_deterministic_ids (fun _ => "h") "t1" "pathA" "t2" "pathB" ['a', 'b'] 2 0).1,
   (C8_deterministic_ids (fun _ => "h") "t1" "pathA" "t2" "pathB" ['a', 'b'] 2 0).2 0
     (by decide)⟩

/-- A chunk record file as seen by `SimpleRAGAssistant._load_chunks`:
`ok c` when `json.loads` succeeds and the record carries a `content`
field with value `c`; `bad` when reading the record raises (malformed
JSON or a missing `content` key), which the `except` clause catches,
logs as a warning and skips. -/
inductive ChunkRecord where
  | ok (content : List Char)
  | bad
deriving DecidableEq

/-- The loading loop of `_load_chunks`: accumulate the `content` of each
parseable record in file order and count one warning per skipped
record. -/
def loadChunks : List ChunkRecord → List (List Char) × Nat
  | [] => ([], 0)
  | ChunkRecord.ok c :: rest =>
      ((loadChunks rest).1.cons c, (loadChunks rest).2)
  | ChunkRecord.bad :: rest =>
      ((loadChunks rest).1, (loadChunks rest).2 + 1)

/-- `_load_chunks` returns `False` for an empty directory and otherwise
`bool(self.chunks)`; `setup` builds the store exactly when that is
`True`. -/
def setupSucceeds (files : List ChunkRecord) : Bool :=
  !files.isEmpty && !(loadChunks files).1.isEmpty

/-- Skipping is local: a `bad` record anywhere in the directory leaves
the loaded corpus unchanged and adds exactly one warning. -/
theorem loadChunks_skip_bad (pre post : List ChunkRecord) :
    (loadChunks (pre ++ ChunkRecord.bad :: post)).1 = (loadChunks (pre ++ post)).1 ∧
    (loadChunks (pre ++ ChunkRecord.bad :: post)).2 = (loadChunks (pre ++ post)).2 + 1 := by
  induction pre with
  | nil => exact ⟨rfl, rfl⟩
  | cons r pre ih =>
    cases r with
    | ok c =>
      simp only [List.cons_append, loadChunks, List.append_eq]
      exact ⟨by rw [ih.1], by rw [ih.2]⟩
    | bad =>
      simp only [List.cons_append, loadChunks, List.append_eq]
      exact ⟨by rw [ih.1], by rw [ih.2]⟩

/-- C9 (amended): a directory of 5 valid records and 1 record missing
`content` yields a corpus of size **5** (each valid record contributes
its content, in order), exactly one warning, and a successful `setup()`;
and in general a skipped record is local, not fatal to the load. -/
theorem C9_load_skips_bad (c1 c2 c3 c4 c5 : List Char) :
    (loadChunks [ChunkRecord.ok c1, ChunkRecord.ok c2, ChunkRecord.ok c3,
        ChunkRecord.ok c4, ChunkRecord.ok c5, ChunkRecord.bad]).1 =
      [c1, c2, c3, c4, c5] ∧
    (loadChunks [ChunkRecord.ok c1, ChunkRecord.ok c2, ChunkRecord.ok c3,
        ChunkRecord.ok c4, ChunkRecord.ok c5, ChunkRecord.bad]).2 = 1 ∧
    setupSucceeds [ChunkRecord.ok c1, ChunkRecord.ok c2, ChunkRecord.ok c3,
        ChunkRecord.ok c4, ChunkRecord.ok c5, ChunkRecord.bad] = true ∧
    ∀ pre post : List ChunkRecord,
      (loadChunks (pre ++ ChunkRecord.bad :: post)).1 = (loadChunks (pre ++ post)).1 := by
  refine ⟨rfl, rfl, rfl, ?_⟩
  intro pre post
  exact (loadChunks_skip_bad pre post).1

/-- C9 fails as stated: the concrete 6-record directory (5 valid, 1
missing `content`) yields a corpus of size 5, not 4. -/
theorem C9_counterexample :
    (loadChunks [ChunkRecord.ok ['a'], ChunkRecord.ok ['b'], ChunkRecord.ok ['c'],
        ChunkRecord.ok ['d'], ChunkRecord.ok ['e'], ChunkRecord.bad]).1.length ≠ 4 ∧
    (loadChunks [ChunkRecord.ok ['a'], ChunkRecord.ok ['b'], ChunkRecord.ok ['c'],
        ChunkRecord.ok ['d'], ChunkRecord.ok ['e'], ChunkRecord.bad]).1.length = 5 := by
  exact ⟨by decide, by decide⟩

/-- Tokens are the strings produced by `SimpleVectorizer._tokenise`
(lower-cased words, stop words and 1-character words removed); a
document is represented by its token sequence. -/
abbrev Token := String

/-- A sparse term-weight vector (a Python dict `term → weight`): its key
set plus the weight function.  Every vector built by `vector` has weight
`0` outside its key set. -/
structure SVec where
  supp : Finset Token
  w : Token → ℝ

/-- The document-frequency map built by `SimpleVectorizer.fit`: starting
from the empty dict, each document `d` increments `df[t]` once for each
distinct token `t ∈ d` (the code iterates over `set(self._tokenise(doc))`). -/
def dfOf (docs : List (List Token)) : Token → Nat :=
  docs.foldl (fun df d t => if t ∈ d then df t + 1 else df t) (fun _ => 0)

/-- `SimpleVectorizer.vector`: `tf = count(t) / max(|tokens|, 1)`,
`idf = ln((N+1)/(df[t]+1)) + 1`, weight `tf * idf`; the dict's keys are
the distinct tokens of the document (tokens not in the document have raw
count 0, hence weight 0, and are not keys). -/
noncomputable def vector (N : Nat) (df : Token → Nat) (tokens : List Token) : SVec :=
  { supp := tokens.toFinset
    w := fun t => ((tokens.count t : ℝ) / ((max tokens.length 1 : Nat) : ℝ)) *
      (Real.log (((N : ℝ) + 1) / ((df t : ℝ) + 1)) + 1) }

/-- `cosine`'s numerator: the dot product restricted to the shared keys
(`common = set(a) & set(b)`). -/
noncomputable def SVec.dot (a b : SVec) : ℝ :=
  ∑ t ∈ a.supp ∩ b.supp, a.w t * b.w t

/-- Euclidean norm over the vector's own keys
(`sqrt(sum(v*v for v in a.values()))`). -/
noncomputable def SVec.norm (a : SVec) : ℝ :=
  Real.sqrt (∑ t ∈ a.supp, a.w t ^ 2)

/-- `SimpleVectorizer.cosine`: `0.0` when the product of the two norms
is zero, else the normalized dot product. -/
noncomputable def SVec.cosine (a b : SVec) : ℝ :=
  if a.norm * b.norm = 0 then 0 else a.dot b / (a.norm * b.norm)

/-- `VectorStore` state: the chunk texts, in insertion order.  `N`, `df`
and the cached per-chunk vectors are derived from them exactly as
`VectorStore.__init__` does (fit over all texts, then vectorize each). -/
structure Store where
  texts : List (List Token)

/-- The query vector: `self.vect.vector(query)` with the fitted `N` and
`df`. -/
noncomputable def Store.qvec (st : Store) (q : List Token) : SVec :=
  vector st.texts.length (dfOf st.texts) q

/-- The cached chunk vectors `self.vecs`. -/
noncomputable def Store.vecs (st : Store) : List SVec :=
  st.texts.map (vector st.texts.length (dfOf st.texts))

/-- `sims[i]` — cosine similarity of the query against the `i`-th cached
vector (0 out of range; `search` only uses indices `< len(texts)`). -/
noncomputable def Store.sims (st : Store) (q : List Token) (i : Nat) : ℝ :=
  (st.vecs.map (fun v => SVec.cosine (st.qvec q) v)).getD i 0

/-- The order by which Python's stable `sorted(range(n), key=sims,
reverse=True)` arranges the (distinct) indices: higher score first, and
for equal scores the original index order (stability). -/
def rankRel (sims : Nat → ℝ) (i j : Nat) : Prop :=
  sims j < sims i ∨ (sims i = sims j ∧ i ≤ j)

noncomputable instance (sims : Nat → ℝ) : DecidableRel (rankRel sims) :=
  fun _ _ => Classical.dec _

instance (sims : Nat → ℝ) : IsTotal Nat (rankRel sims) where
  total i j := by
    rcases lt_trichotomy (sims i) (sims j) with h | h | h
    · exact Or.inr (Or.inl h)
    · rcases Nat.le_total i j with hij | hij
      · exact Or.inl (Or.inr ⟨h, hij⟩)
      · exact Or.inr (Or.inr ⟨h.symm, hij⟩)
    · exact Or.inl (Or.inl h)

instance (sims : Nat → ℝ) : IsTrans Nat (rankRel sims) where
  trans i j k hij hjk := by
    rcases hij with h1 | ⟨e1, l1⟩
    · rcases hjk with h2 | ⟨e2, l2⟩
      · exact Or.inl (h2.trans h1)
      · exact Or.inl (e2 ▸ h1)
    · rcases hjk with h2 | ⟨e2, l2⟩
      · exact Or.inl (e1 ▸ h2)
      · exact Or.inr ⟨e1.trans e2, l1.trans l2⟩

/-- `VectorStore.search(query, k)`: rank all chunk indices by descending
score (stable, so `rankRel`), truncate to `k`, and return each surviving
index paired with its score (standing for the `(text, meta, score)`
triple the code builds from the index). -/
noncomputable def Store.search (st : Store) (q : List Token) (k : Nat) : List (Nat × ℝ) :=
  ((List.insertionSort (rankRel (st.sims q)) (List.range st.texts.length)).take k).map
    (fun i => (i, st.sims q i))

/-- The three possible results of `SimpleRAGAssistant.ask`, one
constructor per `return` statement: the "Assistant not initialised."
string, the "No relevant information found." string, and the formatted
answer assembled from the search results. -/
inductive AskResult where
  | notInitialised
  | noRelevant
  | answer (results : List (Nat × ℝ))

/-- `SimpleRAGAssistant.ask(q, k)`: `self.store` is `None` until a
successful `setup()`; otherwise the result is "no relevant information"
exactly when `search` returned an empty list. -/
noncomputable def ask (store : Option Store) (q : List Token) (k : Nat) : AskResult :=
  match store with
  | none => AskResult.notInitialised
  | some st =>
      let results := st.search q k
      if results.isEmpty then AskResult.noRelevant else AskResult.answer results

/-- Unfolding the `fit` loop: the final count for `t` is its initial
count plus the number of documents containing `t`. -/
theorem dfOf_foldl (docs : List (List Token)) (df0 : Token → Nat) (t : Token) :
    docs.foldl (fun df d t => if t ∈ d then df t + 1 else df t) df0 t =
      df0 t + (docs.filter (fun d => t ∈ d)).length := by
  induction docs generalizing df0 with
  | nil => simp
  | cons d docs ih =>
    simp only [List.foldl_cons]
    rw [ih]
    by_cases h : t ∈ d
    · simp [List.filter_cons, h]
      omega
    · simp [List.filter_cons, h]

/-- `df[t]` equals the number of documents containing `t`. -/
theorem dfOf_eq_filter_length (docs : List (List Token)) (t : Token) :
    dfOf docs t = (docs.filter (fun d => t ∈ d)).length := by
  unfold dfOf
  rw [dfOf_foldl]
  omega

/-- `df[t] ≤ N` for a fitted vectorizer. -/
theorem dfOf_le_length (docs : List (List Token)) (t : Token) :
    dfOf docs t ≤ docs.length := by
  rw [dfOf_eq_filter_length]
  exact List.length_filter_le _ docs

/-- The smoothed idf is at least 1 (hence positive) whenever
`df[t] ≤ N`, which `fit` guarantees. -/
theorem idf_pos (N dft : Nat) (h : dft ≤ N) :
    0 < Real.log (((N : ℝ) + 1) / ((dft : ℝ) + 1)) + 1 := by
  have h1 : (1 : ℝ) ≤ ((N : ℝ) + 1) / ((dft : ℝ) + 1) := by
    rw [le_div_iff₀ (by positivity)]
    have : (dft : ℝ) ≤ (N : ℝ) := by exact_mod_cast h
    linarith
  have h2 := Real.log_nonneg h1
  linarith

/-- Every weight a fitted vectorizer assigns is nonnegative. -/
theorem vector_w_nonneg (N : Nat) (df : Token → Nat) (tokens : List Token) (t : Token)
    (h : df t ≤ N) : 0 ≤ (vector N df tokens).w t := by
  unfold vector
  apply mul_nonneg
  · positivity
  · exact (idf_pos N (df t) h).le

theorem SVec.dot_nonneg (a b : SVec) (ha : ∀ t, 0 ≤ a.w t) (hb : ∀ t, 0 ≤ b.w t) :
    0 ≤ a.dot b :=
  Finset.sum_nonneg fun t _ => mul_nonneg (ha t) (hb t)

theorem SVec.norm_nonneg (a : SVec) : 0 ≤ a.norm := Real.sqrt_nonneg _

/-- Cauchy–Schwarz for the truncated dot product: the sum over the
shared keys is bounded by the product of the full norms. -/
theorem SVec.dot_le_norm_mul_norm (a b : SVec) : a.dot b ≤ a.norm * b.norm := by
  have h1 : a.dot b ≤ Real.sqrt (∑ t ∈ a.supp ∩ b.supp, a.w t ^ 2) *
      Real.sqrt (∑ t ∈ a.supp ∩ b.supp, b.w t ^ 2) :=
    Real.sum_mul_le_sqrt_mul_sqrt _ _ _
  have h2 : Real.sqrt (∑ t ∈ a.supp ∩ b.supp, a.w t ^ 2) ≤ a.norm := by
    apply Real.sqrt_le_sqrt
    apply Finset.sum_le_sum_of_subset_of_nonneg Finset.inter_subset_left
    intro t _ _
    positivity
  have h3 : Real.sqrt (∑ t ∈ a.supp ∩ b.supp, b.w t ^ 2) ≤ b.norm := by
    apply Real.sqrt_le_sqrt
    apply Finset.sum_le_sum_of_subset_of_nonneg Finset.inter_subset_right
    intro t _ _
    positivity
  calc a.dot b ≤ _ := h1
    _ ≤ a.norm * b.norm :=
        mul_le_mul h2 h3 (Real.sqrt_nonneg _) (SVec.norm_nonneg a)

/-- For nonnegative vectors the cosine similarity lies in `[0, 1]`. -/
theorem SVec.cosine_mem_Icc (a b : SVec) (ha : ∀ t, 0 ≤ a.w t) (hb : ∀ t, 0 ≤ b.w t) :
    0 ≤ SVec.cosine a b ∧ SVec.cosine a b ≤ 1 := by
  unfold SVec.cosine
  by_cases h : a.norm * b.norm = 0
  · rw [if_pos h]
    norm_num
  · rw [if_neg h]
    have hpos : 0 < a.norm * b.norm :=
      lt_of_le_of_ne (mul_nonneg (SVec.norm_nonneg a) (SVec.norm_nonneg b)) (Ne.symm h)
    constructor
    · exact div_nonneg (SVec.dot_nonneg a b ha hb) hpos.le
    · rw [div_le_one hpos]
      exact SVec.dot_le_norm_mul_norm a b

/-- A zero dot product always yields cosine 0, whichever branch runs. -/
theorem SVec.cosine_of_dot_zero (a b : SVec) (h : a.dot b = 0) : SVec.cosine a b = 0 := by
  unfold SVec.cosine
  split_ifs with hm
  · rfl
  · rw [h, zero_div]

/-- C5: for a fitted vectorizer, `df[t]` is the number of documents
containing `t` (counted once per document, whatever the multiplicity)
and is at most `N = |documents|`; `vector` maps each token to
`tf * idf` with `tf = count / max(|tokens|, 1)` and
`idf = ln((N+1)/(df[t]+1)) + 1`; terms absent from the document are not
keys of the vector and carry weight 0; and the smoothed idf is always
positive. -/
theorem C5_fit_vector (docs : List (List Token)) (tokens : List Token) (t : Token) :
    dfOf docs t = (docs.filter (fun d => t ∈ d)).length ∧
    dfOf docs t ≤ docs.length ∧
    (vector docs.length (dfOf docs) tokens).w t =
      ((tokens.count t : ℝ) / ((max tokens.length 1 : Nat) : ℝ)) *
        (Real.log (((docs.length : ℝ) + 1) / ((dfOf docs t : ℝ) + 1)) + 1) ∧
    (t ∉ tokens → t ∉ (vector docs.length (dfOf docs) tokens).supp ∧
      (vector docs.length (dfOf docs) tokens).w t = 0) ∧
    0 < Real.log (((docs.length : ℝ) + 1) / ((dfOf docs t : ℝ) + 1)) + 1 := by
  refine ⟨dfOf_eq_filter_length docs t, dfOf_le_length docs t, rfl, ?_, ?_⟩
  · intro hnm
    constructor
    · unfold vector
      simpa using hnm
    · unfold vector
      simp only
      rw [List.count_eq_zero_of_not_mem hnm]
      norm_num
  · exact idf_pos docs.length (dfOf docs t) (dfOf_le_length docs t)

/-- Witness for C5 on the one-document corpus `[["aa"]]`. -/
theorem C5_witness :
    dfOf [["aa"]] "aa" = 1 ∧
    ("bb" : Token) ∉ (vector (List.length [["aa"]]) (dfOf [["aa"]]) ["aa"]).supp := by
  constructor
  · rw [(C5_fit_vector [["aa"]] ["aa"] "aa").1]
    decide
  · exact ((C5_fit_vector [["aa"]] ["aa"] "bb").2.2.2.1 (by decide)).1

/-- C6: `cosine` is total — it equals the normalized dot product when
both norms are nonzero, and returns `0.0` (instead of dividing by zero)
as soon as either norm vanishes. -/
theorem C6_cosine_total (a b : SVec) :
    SVec.cosine a b =
      (if a.norm = 0 ∨ b.norm = 0 then 0 else a.dot b / (a.norm * b.norm)) ∧
    ((a.norm = 0 ∨ b.norm = 0) → SVec.cosine a b = 0) ∧
    (a.norm ≠ 0 → b.norm ≠ 0 →
      a.norm * b.norm ≠ 0 ∧ SVec.cosine a b = a.dot b / (a.norm * b.norm)) := by
  have hiff : a.norm * b.norm = 0 ↔ (a.norm = 0 ∨ b.norm = 0) := mul_eq_zero
  refine ⟨?_, ?_, ?_⟩
  · unfold SVec.cosine
    by_cases h : a.norm = 0 ∨ b.norm = 0
    · rw [if_pos (hiff.mpr h), if_pos h]
    · rw [if_neg (fun hm => h (hiff.mp hm)), if_neg h]
  · intro h
    unfold SVec.cosine
    rw [if_pos (hiff.mpr h)]
  · intro h1 h2
    have hne : a.norm * b.norm ≠ 0 := fun hm => by
      rcases hiff.mp hm with h | h
      · exact h1 h
      · exact h2 h
    refine ⟨hne, ?_⟩
    unfold SVec.cosine
    rw [if_neg hne]

/-- Witness for C6 on two concrete one-key vectors with nonzero norms. -/
theorem C6_witness :
    SVec.cosine ⟨{"aa"}, fun _ => 1⟩ ⟨{"bb"}, fun _ => 1⟩ =
      SVec.dot ⟨{"aa"}, fun _ => 1⟩ ⟨{"bb"}, fun _ => 1⟩ /
        (SVec.norm ⟨{"aa"}, fun _ => 1⟩ * SVec.norm ⟨{"bb"}, fun _ => 1⟩) :=
  ((C6_cosine_total ⟨{"aa"}, fun _ => 1⟩ ⟨{"bb"}, fun _ => 1⟩).2.2
    (by simp [SVec.norm]) (by simp [SVec.norm])).2

/-- C7: `cosine(v, v) = 1` for every vector with nonzero norm (exactly
1 over the reals), and `cosine(a, b) = 0` whenever the two vectors share
no keys. -/
theorem C7_cosine_self_disjoint (v a b : SVec) (hv : v.norm ≠ 0)
    (hd : a.supp ∩ b.supp = ∅) :
    SVec.cosine v v = 1 ∧ SVec.cosine a b = 0 := by
  constructor
  · have hs : (0 : ℝ) ≤ ∑ t ∈ v.supp, v.w t ^ 2 :=
      Finset.sum_nonneg fun t _ => sq_nonneg _
    have hmul : v.norm * v.norm = ∑ t ∈ v.supp, v.w t ^ 2 := Real.mul_self_sqrt hs
    have hdot : SVec.dot v v = ∑ t ∈ v.supp, v.w t ^ 2 := by
      unfold SVec.dot
      rw [Finset.inter_self]
      exact Finset.sum_congr rfl fun t _ => (sq (v.w t)).symm
    have hne : v.norm * v.norm ≠ 0 := mul_ne_zero hv hv
    unfold SVec.cosine
    rw [if_neg hne, hdot, hmul]
    exact div_self (by rw [← hmul]; exact hne)
  · apply SVec.cosine_of_dot_zero
    unfold SVec.dot
    rw [hd]
    exact Finset.sum_empty

/-- Witness for C7 on concrete one-key vectors. -/
theorem C7_witness :
    SVec.cosine ⟨{"aa"}, fun _ => 1⟩ ⟨{"aa"}, fun _ => 1⟩ = 1 ∧
    SVec.cosine ⟨{"cc"}, fun _ => 1⟩ ⟨{"dd"}, fun _ => 1⟩ = 0 :=
  C7_cosine_self_disjoint ⟨{"aa"}, fun _ => 1⟩ ⟨{"cc"}, fun _ => 1⟩ ⟨{"dd"}, fun _ => 1⟩
    (by simp [SVec.norm]) (by decide)

theorem search_length (st : Store) (q : List Token) (k : Nat) :
    (st.search q k).length = min k st.texts.length := by
  unfold Store.search
  rw [List.length_map, List.length_take]
  congr 1
  rw [(List.perm_insertionSort (rankRel (st.sims q)) (List.range st.texts.length)).length_eq]
  exact List.length_range _

theorem sims_eq (st : Store) (q : List Token) (i : Nat) (hi : i < st.texts.length) :
    st.sims q i =
      SVec.cosine (st.qvec q) (vector st.texts.length (dfOf st.texts) (st.texts.get ⟨i, hi⟩)) := by
  unfold Store.sims Store.vecs
  have h2 : i < ((List.map (vector st.texts.length (dfOf st.texts)) st.texts).map
      (fun v => SVec.cosine (st.qvec q) v)).length := by
    rw [List.length_map, List.length_map]
    exact hi
  rw [List.getD_eq_get _ _ h2]
  simp [List.get_map]

/-- Every score `search` can return lies in `[0, 1]`: both the query
vector and every cached chunk vector have nonnegative weights (the
fitted `df` never exceeds `N`), so the cosine is in `[0, 1]`. -/
theorem sims_bounds (st : Store) (q : List Token) (i : Nat) (hi : i < st.texts.length) :
    0 ≤ st.sims q i ∧ st.sims q i ≤ 1 := by
  rw [sims_eq st q i hi]
  apply SVec.cosine_mem_Icc
  · intro t
    exact vector_w_nonneg _ _ _ _ (dfOf_le_length _ _)
  · intro t
    exact vector_w_nonneg _ _ _ _ (dfOf_le_length _ _)

/-- The ranked index list is sorted by `rankRel` and duplicate-free. -/
theorem ranked_sorted (st : Store) (q : List Token) :
    List.Pairwise (fun i j => rankRel (st.sims q) i j ∧ i ≠ j)
      (List.insertionSort (rankRel (st.sims q)) (List.range st.texts.length)) := by
  have hs : List.Sorted (rankRel (st.sims q))
      (List.insertionSort (rankRel (st.sims q)) (List.range st.texts.length)) :=
    List.sorted_insertionSort _ _
  have hnd : (List.insertionSort (rankRel (st.sims q)) (List.range st.texts.length)).Nodup :=
    ((List.perm_insertionSort _ _).nodup_iff).mpr (List.nodup_range _)
  exact hs.and hnd

/-- C2: `search(query, k)` returns at most `k` results, every score is
in `[0, 1]`, scores are sorted non-increasingly, ties are broken by the
original insertion order (the earlier result has the smaller chunk
index), and when `k` exceeds the corpus size every chunk is returned. -/
theorem C2_search_ranked (st : Store) (q : List Token) (k : Nat) :
    (st.search q k).length ≤ k ∧
    (∀ p ∈ st.search q k, 0 ≤ p.2 ∧ p.2 ≤ 1) ∧
    List.Pairwise (fun p p' : Nat × ℝ => p'.2 ≤ p.2) (st.search q k) ∧
    List.Pairwise (fun p p' : Nat × ℝ => p.2 = p'.2 → p.1 < p'.1) (st.search q k) ∧
    (st.texts.length ≤ k → (st.search q k).length = st.texts.length ∧
      ∀ i, i < st.texts.length → (i, st.sims q i) ∈ st.search q k) := by
  have hpt : List.Pairwise (fun i j => rankRel (st.sims q) i j ∧ i ≠ j)
      ((List.insertionSort (rankRel (st.sims q)) (List.range st.texts.length)).take k) :=
    (ranked_sorted st q).sublist (List.take_sublist _ _)
  refine ⟨?_, ?_, ?_, ?_, ?_⟩
  · rw [search_length]
    exact Nat.min_le_left _ _
  · intro p hp'
    unfold Store.search at hp'
    rw [List.mem_map] at hp'
    obtain ⟨i, hi, rfl⟩ := hp'
    have hmem : i ∈ List.insertionSort (rankRel (st.sims q)) (List.range st.texts.length) :=
      List.mem_of_mem_take hi
    have hlt : i < st.texts.length := by
      have h := ((List.perm_insertionSort _ _).mem_iff).mp hmem
      simpa [List.mem_range] using h
    exact sims_bounds st q i hlt
  · unfold Store.search
    rw [List.pairwise_map]
    refine hpt.imp ?_
    intro i j h
    rcases h.1 with hlt | ⟨heq, -⟩
    · exact le_of_lt hlt
    · exact le_of_eq heq.symm
  · unfold Store.search
    rw [List.pairwise_map]
    refine hpt.imp ?_
    intro i j h
    intro heq
    rcases h.1 with hlt | ⟨-, hle⟩
    · exfalso
      have heq' : st.sims q i = st.sims q j := heq
      rw [heq'] at hlt
      exact lt_irrefl _ hlt
    · exact lt_of_le_of_ne hle h.2
  · intro hk
    constructor
    · rw [search_length]
      omega
    · intro i hi
      have hsortlen : (List.insertionSort (rankRel (st.sims q))
          (List.range st.texts.length)).length = st.texts.length := by
        rw [(List.perm_insertionSort _ _).length_eq]
        exact List.length_range _
      have htake : (List.insertionSort (rankRel (st.sims q))
          (List.range st.texts.length)).take k =
          List.insertionSort (rankRel (st.sims q)) (List.range st.texts.length) :=
        List.take_of_length_le (by omega)
      have hmem : i ∈ List.insertionSort (rankRel (st.sims q)) (List.range st.texts.length) :=
        ((List.perm_insertionSort _ _).mem_iff).mpr (List.mem_range.mpr hi)
      unfold Store.search
      rw [htake]
      exact List.mem_map_of_mem _ hmem

/-- Witness for C2 on the one-chunk corpus `[["aa"]]` with `k = 1`. -/
theorem C2_witness :
    (Store.search (Store.mk [["aa"]]) ["aa"] 1).length = 1 := by
  have h := ((C2_search_ranked (Store.mk [["aa"]]) ["aa"] 1).2.2.2.2 (by decide)).1
  simpa using h

/-- C10: `search` returns exactly `min(k, corpus size)` results — chunks
with zero score are not filtered out — so the result list is nonempty
whenever `k ≥ 1` and the corpus is nonempty. -/
theorem C10_search_min_results (st : Store) (q : List Token) (k : Nat) :
    (st.search q k).length = min k st.texts.length ∧
    (1 ≤ k → st.texts ≠ [] → st.search q k ≠ []) := by
  refine ⟨search_length st q k, ?_⟩
  intro hk hne hcon
  have h := search_length st q k
  rw [hcon] at h
  have hpos : 0 < st.texts.length := List.length_pos.mpr hne
  simp at h
  omega

/-- Witness for C10: a query sharing no token with the corpus still
returns the corpus' only chunk. -/
theorem C10_witness :
    Store.search (Store.mk [["aa"]]) ["bb"] 1 ≠ [] :=
  (C10_search_min_results (Store.mk [["aa"]]) ["bb"] 1).2 (by decide) (by decide)

/-- C3 (amended): `ask` on a session without a store returns the
"not initialised" result (and, being a total function of the state, it
never raises); on a ready session it returns "no relevant information"
exactly when `search` returned an *empty list* — which, for `k ≥ 1` and
a nonempty corpus, never happens, even when every candidate's score is
zero. -/
theorem C3_ask_guards (st : Store) (q : List Token) (k : Nat) :
    ask none q k = AskResult.notInitialised ∧
    (ask (some st) q k = AskResult.noRelevant ↔ st.search q k = []) ∧
    (1 ≤ k → st.texts ≠ [] → ask (some st) q k ≠ AskResult.noRelevant) := by
  have hiff : ask (some st) q k = AskResult.noRelevant ↔ st.search q k = [] := by
    unfold ask
    by_cases h : (st.search q k).isEmpty
    · simp only [h, if_true]
      simp [List.isEmpty_iff.mp h]
    · simp only [h, if_false]
      constructor
      · intro hcon
        exact absurd hcon (by simp)
      · intro hcon
        exact absurd (List.isEmpty_iff.mpr hcon) h
  refine ⟨rfl, hiff, ?_⟩
  intro hk hne hcon
  have hemp := hiff.mp hcon
  have h := search_length st q k
  rw [hemp] at h
  have hpos : 0 < st.texts.length := List.length_pos.mpr hne
  simp at h
  omega

theorem ask_some (st : Store) (q : List Token) (k : Nat) :
    ask (some st) q k =
      if (st.search q k).isEmpty then AskResult.noRelevant
      else AskResult.answer (st.search q k) := rfl

/-- C3 fails as stated on its second half: a ready session over the
single chunk `["aa"]`, asked a query `["bb"]` sharing no vocabulary with
it, has similarity 0 for its only candidate — yet `ask` returns a
formatted answer, not "no relevant information", because the code tests
`if not results` (emptiness), not whether any score is nonzero. -/
theorem C3_counterexample :
    Store.sims (Store.mk [["aa"]]) ["bb"] 0 = 0 ∧
    ask (some (Store.mk [["aa"]])) ["bb"] 3 ≠ AskResult.noRelevant := by
  constructor
  · rw [sims_eq (Store.mk [["aa"]]) ["bb"] 0 (by decide)]
    apply SVec.cosine_of_dot_zero
    unfold SVec.dot
    have hd : (Store.qvec (Store.mk [["aa"]]) ["bb"]).supp ∩
        (vector (Store.mk [["aa"]]).texts.length (dfOf (Store.mk [["aa"]]).texts)
          ((Store.mk [["aa"]]).texts.get ⟨0, by decide⟩)).supp = ∅ := by
      show (["bb"] : List Token).toFinset ∩ (["aa"] : List Token).toFinset = ∅
      decide
    rw [hd]
    exact Finset.sum_empty
  · have hlen := search_length (Store.mk [["aa"]]) ["bb"] 3
    have hne : Store.search (Store.mk [["aa"]]) ["bb"] 3 ≠ [] := by
      intro hcon
      rw [hcon] at hlen
      simp at hlen
    rw [ask_some, if_neg (by rw [List.isEmpty_iff]; exact hne)]
    simp

/-- Witness for C3 on a ready one-chunk session. -/
theorem C3_witness :
    ask none [] 0 = AskResult.notInitialised ∧
    ask (some (Store.mk [["aa"]])) ["aa"] 1 ≠ AskResult.noRelevant :=
  ⟨(C3_ask_guards (Store.mk [["aa"]]) [] 0).1,
   (C3_ask_guards (Store.mk [["aa"]]) ["aa"] 1).2.2 (by decide) (by decide)⟩

end ReviewAssistant
